import Mathlib

set_option maxHeartbeats 2000000
set_option maxRecDepth 4000

/-!
Verification development for the vllm tool-call extraction core.

The Python sources embedded here are:
  vllm/entrypoints/openai/tool_parsers/hermes_tool_parser.py
  vllm/entrypoints/openai/tool_parsers/llama_3_1_tool_parser.py
  vllm/entrypoints/openai/tool_parsers/llama31_json_tool_parser.py

Conventions of the embedding:
  - Python dict/list/str/int/bool/None values are modelled by the `Json`
    inductive; JSON numbers are modelled as integers (no floats appear in
    any statement below).
  - `json.dumps` is modelled by `Json.dumps` with Python's default
    separators (item separator `, `, key separator `: `) and insertion
    key order; string escaping covers quote, backslash, newline, tab, CR.
  - A Python operation that can raise is modelled as an `Option`-valued
    function; `none` is the raised exception, which the embedded control
    flow propagates exactly to the enclosing `try`: mutations performed
    before the raise are kept, as in Python.
  - Special characters are written via `Char.ofNat` and `\x7b`/`\x7d`
    escapes to keep literals unambiguous.
-/

/-! ## Characters and small string utilities -/

def qc : Char := Char.ofNat 34

def bsl : Char := Char.ofNat 92

def lb : Char := Char.ofNat 123

def rb : Char := Char.ofNat 125

def lk : Char := Char.ofNat 91

def rk : Char := Char.ofNat 93

def colonChar : Char := Char.ofNat 58

def commaChar : Char := Char.ofNat 44

def minusChar : Char := Char.ofNat 45

def isWsChar (c : Char) : Bool :=
  c = Char.ofNat 32 || c = Char.ofNat 10 || c = Char.ofNat 9 || c = Char.ofNat 13

def isDigitChar (c : Char) : Bool :=
  48 ≤ c.toNat && c.toNat ≤ 57

/-- `isPrefixList pat l` : does `l` start with `pat`? -/
def isPrefixList : List Char → List Char → Bool
  | [], _ => true
  | _ :: _, [] => false
  | p :: ps, c :: cs => p = c && isPrefixList ps cs

/-- First index at which `pat` occurs in the text, as Python `str.find` /
`str.index` compute it (`none` models the `ValueError` of `index`). -/
def subIndex (pat : List Char) : List Char → Option Nat
  | [] => if pat.isEmpty then some 0 else none
  | c :: r => if isPrefixList pat (c :: r) then some 0 else (subIndex pat r).map (· + 1)

def strIndexOf (hay pat : String) : Option Nat := subIndex pat.data hay.data

def strContains (hay pat : String) : Bool := (strIndexOf hay pat).isSome

def strTakeN (s : String) (n : Nat) : String := String.mk (s.data.take n)

/-- Python `s.replace(pat, '')`: delete every (leftmost, non-overlapping)
occurrence of `pat`.  An empty pattern leaves the string unchanged, as
Python's replacement by the empty string does. -/
def removeAllAux (pat : List Char) : Nat → List Char → List Char
  | 0, l => l
  | _ + 1, [] => []
  | fuel + 1, c :: r =>
    if !pat.isEmpty && isPrefixList pat (c :: r) then
      removeAllAux pat fuel (List.drop pat.length (c :: r))
    else c :: removeAllAux pat fuel r

def strRemoveAll (s pat : String) : String :=
  String.mk (removeAllAux pat.data (s.data.length + 1) s.data)

/-- Longest common prefix length of two character lists. -/
def lcpLen : List Char → List Char → Nat
  | a :: as, b :: bs2 => if a = b then lcpLen as bs2 + 1 else 0
  | _, _ => 0

/-- Last element of a list of strings, or the empty string; on the output
of `strSplitOn` (never empty) this is Python's `split(...)[-1]`. -/
def lastOrDefault (l : List String) : String := l.foldl (fun _ x => x) ""

/-- Python `s.split(sep)` for a non-empty separator: cut at each leftmost
occurrence. -/
def splitOnList (sep : List Char) : Nat → List Char → List (List Char)
  | 0, l => [l]
  | fuel + 1, l =>
    if sep.isEmpty then [l]
    else
      match subIndex sep l with
      | none => [l]
      | some i => l.take i :: splitOnList sep fuel (l.drop (i + sep.length))

def strSplitOn (s sep : String) : List String :=
  (splitOnList sep.data (s.data.length + 1) s.data).map String.mk

/-! ## Python-style list access -/

/-- Python `l[i]` with negative-index support; `none` is the `IndexError`. -/
def pyListGet {α : Type} (l : List α) (i : Int) : Option α :=
  if 0 ≤ i then l.get? i.toNat
  else if 0 ≤ (l.length : Int) + i then l.get? ((l.length : Int) + i).toNat
  else none

/-- Python `l[i] = v` with negative-index support; `none` is the `IndexError`. -/
def pyListSet {α : Type} (l : List α) (i : Int) (v : α) : Option (List α) :=
  let j : Int := if 0 ≤ i then i else (l.length : Int) + i
  if 0 ≤ j ∧ j < (l.length : Int) then some (l.set j.toNat v) else none

/-! ## JSON values -/

inductive Json where
  | null : Json
  | bool : Bool → Json
  | num : Int → Json
  | str : String → Json
  | arr : List Json → Json
  | obj : List (String × Json) → Json
deriving Inhabited

/-- Python truthiness of a decoded JSON value. -/
def Json.truthy : Json → Bool
  | .null => false
  | .bool b => b
  | .num n => n != 0
  | .str s => !s.isEmpty
  | .arr l => !l.isEmpty
  | .obj l => !l.isEmpty

def jTruthyOpt : Option Json → Bool
  | none => false
  | some j => j.truthy

/-- First binding of key `k` (keys are unique by construction, see
`objInsert`). -/
def jsonLookup (k : String) : List (String × Json) → Option Json
  | [] => none
  | (k2, v) :: t => if k2 = k then some v else jsonLookup k t

/-- Python `d.get(k)`: `none` models the `AttributeError`/`TypeError` of
calling `.get` on a non-dict, `some o` is the returned value (`o = none`
being Python's `None`). -/
def pyGet (j : Json) (k : String) : Option (Option Json) :=
  match j with
  | .obj entries => some (jsonLookup k entries)
  | _ => none

/-- Insert a key as Python dicts do: an existing key keeps its position and
takes the new value, a fresh key is appended. -/
def objInsert (entries : List (String × Json)) (k : String) (v : Json) :
    List (String × Json) :=
  if (jsonLookup k entries).isSome then
    entries.map (fun p => if p.1 = k then (k, v) else p)
  else entries ++ [(k, v)]

/-! ## Canonical serialization (`json.dumps`) -/

def commaSep : String := ", "

def colonSep : String := ": "

/-- Escaping as `json.dumps` performs it on the inputs of this
development: the quote, the backslash and the control characters with
short escapes.  Code points that the default `ensure_ascii=True` would
render as `\uXXXX` (non-ASCII, and control characters without a short
escape) occur in no modelled input and are passed through. -/
def escChar (c : Char) : List Char :=
  if c = qc then [bsl, qc]
  else if c = bsl then [bsl, bsl]
  else if c = Char.ofNat 10 then [bsl, Char.ofNat 110]
  else if c = Char.ofNat 9 then [bsl, Char.ofNat 116]
  else if c = Char.ofNat 13 then [bsl, Char.ofNat 114]
  else if c = Char.ofNat 8 then [bsl, Char.ofNat 98]
  else if c = Char.ofNat 12 then [bsl, Char.ofNat 102]
  else [c]

def escString (s : String) : String := String.mk (s.data.map escChar).flatten

mutual

def Json.dumps : Json → String
  | .null => "null"
  | .bool true => "true"
  | .bool false => "false"
  | .num n => toString n
  | .str s => String.singleton qc ++ escString s ++ String.singleton qc
  | .arr l => String.singleton lk ++ Json.dumpsElems l ++ String.singleton rk
  | .obj l => String.singleton lb ++ Json.dumpsEntries l ++ String.singleton rb
termination_by structural j => j

def Json.dumpsElems : List Json → String
  | [] => ""
  | [x] => Json.dumps x
  | x :: y :: t => Json.dumps x ++ commaSep ++ Json.dumpsElems (y :: t)
termination_by structural l => l

def Json.dumpsEntries : List (String × Json) → String
  | [] => ""
  | [(k, v)] =>
    String.singleton qc ++ escString k ++ String.singleton qc ++ colonSep ++ Json.dumps v
  | (k, v) :: e :: t =>
    String.singleton qc ++ escString k ++ String.singleton qc ++ colonSep ++ Json.dumps v
      ++ commaSep ++ Json.dumpsEntries (e :: t)
termination_by structural l => l

end

/-! ## JSON parsing: strict (`json.loads`) and tolerant
(`partial_json_parser.loads`)

The strict and tolerant readers share one recursive-descent parser.
Numbers are modelled as integers. -/

inductive PRes where
  | done : Json → List Char → PRes
  | closed : Json → PRes
  | err : PRes

inductive SRes where
  | sdone : List Char → List Char → SRes
  | strunc : List Char → SRes
  | serr : SRes

def unescapeChar (e : Char) : Option Char :=
  if e = qc then some qc
  else if e = bsl then some bsl
  else if e = Char.ofNat 47 then some (Char.ofNat 47)
  else if e = Char.ofNat 110 then some (Char.ofNat 10)
  else if e = Char.ofNat 116 then some (Char.ofNat 9)
  else if e = Char.ofNat 114 then some (Char.ofNat 13)
  else none

/-- Body of a string literal, after the opening quote. -/
def strBody : Nat → List Char → SRes
  | 0, _ => .serr
  | _ + 1, [] => .strunc []
  | fuel + 1, c :: r =>
    if c = qc then .sdone [] r
    else if c = bsl then
      match r with
      | [] => .strunc []
      | e :: r2 =>
        match unescapeChar e with
        | none => .serr
        | some u =>
          match strBody fuel r2 with
          | .sdone s2 rest => .sdone (u :: s2) rest
          | .strunc s2 => .strunc (u :: s2)
          | .serr => .serr
    else
      match strBody fuel r with
      | .sdone s2 rest => .sdone (c :: s2) rest
      | .strunc s2 => .strunc (c :: s2)
      | .serr => .serr

def natFromDigits (l : List Char) : Nat :=
  l.foldl (fun a c => a * 10 + (c.toNat - 48)) 0

/-- Integer literal body; `none` when no digit follows (a numeric literal
cut off before a required digit is rejected, never guessed). -/
def numBody (neg : Bool) (l : List Char) : Option (Int × List Char) :=
  let ds := l.takeWhile isDigitChar
  let r := l.dropWhile isDigitChar
  if ds.isEmpty then none
  else some (if neg then -(natFromDigits ds : Int) else (natFromDigits ds : Int), r)

mutual

def parseVal (strict allowStr : Bool) : Nat → List Char → PRes
  | 0, _ => .err
  | fuel + 1, l =>
    let l1 := l.dropWhile isWsChar
    match l1 with
    | [] => .err
    | c :: r =>
      if c = qc then
        match strBody (r.length + 1) r with
        | .sdone s rest => .done (.str (String.mk s)) rest
        | .strunc s =>
          if strict then .err
          else if allowStr then .closed (.str (String.mk s)) else .err
        | .serr => .err
      else if c = lb then
        let r1 := r.dropWhile isWsChar
        match r1 with
        | [] => if strict then .err else .closed (.obj [])
        | c2 :: r2 =>
          if c2 = rb then .done (.obj []) r2
          else parseObjRest strict allowStr fuel r1 []
      else if c = lk then
        let r1 := r.dropWhile isWsChar
        match r1 with
        | [] => if strict then .err else .closed (.arr [])
        | c2 :: r2 =>
          if c2 = rk then .done (.arr []) r2
          else parseArrRest strict allowStr fuel r1 []
      else if c = minusChar then
        match numBody true r with
        | some (n, rest) => .done (.num n) rest
        | none => .err
      else if isDigitChar c then
        match numBody false (c :: r) with
        | some (n, rest) => .done (.num n) rest
        | none => .err
      else if isPrefixList [Char.ofNat 116, Char.ofNat 114, Char.ofNat 117, Char.ofNat 101] l1 then
        .done (.bool true) (l1.drop 4)
      else if isPrefixList [Char.ofNat 102, Char.ofNat 97, Char.ofNat 108, Char.ofNat 115, Char.ofNat 101] l1 then
        .done (.bool false) (l1.drop 5)
      else if isPrefixList [Char.ofNat 110, Char.ofNat 117, Char.ofNat 108, Char.ofNat 108] l1 then
        .done .null (l1.drop 4)
      else .err
termination_by structural fuel l => fuel

/-- Object members, positioned where a key must come (just after `\x7b`
with a non-`\x7d` lookahead, or just after a comma).  The tolerant reader
closes the object implicitly at end of input, dropping an incomplete
trailing pair; a key not followed by a colon is structurally invalid. -/
def parseObjRest (strict allowStr : Bool) : Nat → List Char → List (String × Json) → PRes
  | 0, _, _ => .err
  | fuel + 1, l, entries =>
    let l1 := l.dropWhile isWsChar
    match l1 with
    | [] => if strict then .err else .closed (.obj entries)
    | c :: r =>
      if c = qc then
        match strBody (r.length + 1) r with
        | .strunc _ => if strict then .err else .closed (.obj entries)
        | .serr => .err
        | .sdone k r2 =>
          let r3 := r2.dropWhile isWsChar
          match r3 with
          | [] => if strict then .err else .closed (.obj entries)
          | c2 :: r4 =>
            if c2 = colonChar then
              let r5 := r4.dropWhile isWsChar
              if r5.isEmpty then
                if strict then .err else .closed (.obj entries)
              else
                match parseVal strict allowStr fuel r5 with
                | .err => .err
                | .closed v =>
                  if strict then .err
                  else .closed (.obj (objInsert entries (String.mk k) v))
                | .done v r6 =>
                  let e2 := objInsert entries (String.mk k) v
                  let r7 := r6.dropWhile isWsChar
                  match r7 with
                  | [] => if strict then .err else .closed (.obj e2)
                  | c3 :: r8 =>
                    if c3 = rb then .done (.obj e2) r8
                    else if c3 = commaChar then parseObjRest strict allowStr fuel r8 e2
                    else .err
            else .err
      else .err
termination_by structural fuel l entries => fuel

/-- Array elements, positioned where an element must come. -/
def parseArrRest (strict allowStr : Bool) : Nat → List Char → List Json → PRes
  | 0, _, _ => .err
  | fuel + 1, l, elems =>
    let l1 := l.dropWhile isWsChar
    if l1.isEmpty then
      if strict then .err else .closed (.arr elems)
    else
      match parseVal strict allowStr fuel l1 with
      | .err => .err
      | .closed v => if strict then .err else .closed (.arr (elems ++ [v]))
      | .done v r =>
        let e2 := elems ++ [v]
        let r2 := r.dropWhile isWsChar
        match r2 with
        | [] => if strict then .err else .closed (.arr e2)
        | c :: r3 =>
          if c = rk then .done (.arr e2) r3
          else if c = commaChar then parseArrRest strict allowStr fuel r3 e2
          else .err
termination_by structural fuel l elems => fuel

end

/-- `json.loads` over the model: parse a complete document, reject
trailing garbage. -/
def json_loads (s : String) : Option Json :=
  match parseVal true true (s.data.length + 1) s.data with
  | .done v rest => if (rest.dropWhile isWsChar).isEmpty then some v else none
  | .closed _ => none
  | .err => none

/-- Modelled from the spec: the Tolerant JSON Reader
(`partial_json_parser.loads`, a third-party dependency not present under
src/) per section 4.1.  A complete document parses normally; an
unterminated string literal is closed implicitly only when `allowStr`
holds (`Allow.ALL` vs `Allow.ALL & ~Allow.STR`); unterminated arrays and
objects are closed implicitly with the members parsed so far (both flag
settings used by the parsers allow arrays and objects); a numeric literal
cut off before a required digit is rejected; structural defects that are
not truncation (stray closer, key without a following colon) fail
deterministically with no partial value. -/
def tolerant_loads (allowStr : Bool) (s : String) : Option Json :=
  match parseVal false allowStr (s.data.length + 1) s.data with
  | .done v rest => if (rest.dropWhile isWsChar).isEmpty then some v else none
  | .closed v => some v
  | .err => none

/-! ## Structural Diff Engine -/

/-- Modelled from the spec: `extract_intermediate_diff` lives in
`vllm/entrypoints/openai/tool_parsers/utils.py`, which is not present
under src/; section 4.2 defines it as: longest common prefix length `p`,
then longest common suffix length `s` of the remaining tails, then the
middle slice of the new serialization between `p` and `len(new) - s`. -/
def extract_intermediate_diff (curr old : String) : String :=
  let n := curr.data
  let o := old.data
  let p := lcpLen n o
  let s := lcpLen (n.drop p).reverse (o.drop p).reverse
  String.mk ((n.drop p).take (n.length - s - p))

/-! ## Wire data model -/

structure FunctionCall where
  name : String
  arguments : String
deriving DecidableEq

/-- `ToolCall` of the protocol: the generated opaque `id` and the constant
`type="function"` tag are omitted from the model. -/
structure ToolCall where
  function : FunctionCall
deriving DecidableEq

structure ExtractedToolCallInformation where
  tools_called : Bool
  tool_calls : List ToolCall
  content : Option String
deriving DecidableEq

/-- All-or-nothing traversal: Python's list comprehension over fallible
element operations inside a single `try`. -/
def optMapAll {α β : Type} (f : α → Option β) : List α → Option (List β)
  | [] => some []
  | a :: t =>
    match f a, optMapAll f t with
    | some b, some bt => some (b :: bt)
    | _, _ => none

/-! ## Hermes one-shot extraction -/

def tool_call_start_token : String := "<tool_call>"

def tool_call_end_token : String := "</tool_call>"

def nameKey : String := "name"

def argumentsKey : String := "arguments"

def parametersKey : String := "parameters"

/-- Framing of `tool_call_regex.findall`: spans between a start tag and
the nearest end tag, scanning left to right, plus a trailing start tag to
end-of-string span. -/
def hermesSpansAux : Nat → List Char → List (List Char)
  | 0, _ => []
  | fuel + 1, l =>
    match subIndex tool_call_start_token.data l with
    | none => []
    | some i =>
      let rest := l.drop (i + tool_call_start_token.data.length)
      match subIndex tool_call_end_token.data rest with
      | none => [rest]
      | some j =>
        rest.take j :: hermesSpansAux fuel (rest.drop (j + tool_call_end_token.data.length))

def hermesSpans (s : String) : List String :=
  (hermesSpansAux (s.data.length + 1) s.data).map String.mk

/-- One span to one `ToolCall`: `json.loads`, then `function_call['name']`
(a `KeyError` or a non-dict raises; a non-string name fails the pydantic
`FunctionCall` model) and `json.dumps(function_call['arguments'])`. -/
def mkHermesToolCall (span : String) : Option ToolCall :=
  match json_loads span with
  | none => none
  | some fc =>
    match fc with
    | .obj entries =>
      match jsonLookup nameKey entries, jsonLookup argumentsKey entries with
      | some (.str nm), some args => some ⟨⟨nm, Json.dumps args⟩⟩
      | _, _ => none
    | _ => none

def Hermes2ProToolParser.extract_tool_calls (model_output : String) :
    ExtractedToolCallInformation :=
  if !(strContains model_output tool_call_start_token) then
    ⟨false, [], some model_output⟩
  else
    match optMapAll mkHermesToolCall (hermesSpans model_output) with
    | none => ⟨false, [], some model_output⟩
    | some tool_calls =>
      let content := strTakeN model_output ((strIndexOf model_output tool_call_start_token).getD 0)
      ⟨true, tool_calls, if content = "" then none else some content⟩

/-! ## Llama 3.1 semicolon-framed one-shot extraction -/

def quotedName : String := String.singleton qc ++ nameKey ++ String.singleton qc

def quotedParameters : String := String.singleton qc ++ parametersKey ++ String.singleton qc

def semicolonSep : String := "; "

/-- One parsed value to one `ToolCall`; any failure (`KeyError`, non-dict
subscription, non-string name) is caught per call and skips it. -/
def mkLlamaToolCall (j : Json) : Option ToolCall :=
  match j with
  | .obj entries =>
    match jsonLookup nameKey entries, jsonLookup parametersKey entries with
    | some (.str nm), some ps => some ⟨⟨nm, Json.dumps ps⟩⟩
    | _, _ => none
  | _ => none

def Llama31ToolParser.extract_tool_calls (model_output : String) :
    ExtractedToolCallInformation :=
  if !(strContains model_output quotedName && strContains model_output quotedParameters) then
    ⟨false, [], some model_output⟩
  else
    let function_calls := (strSplitOn model_output semicolonSep).filterMap json_loads
    ⟨true, function_calls.filterMap mkLlamaToolCall, some ""⟩

/-! ## Llama 3.1 brace-balance-scan one-shot extraction -/

def python_tag : String := "<|python_tag|>"

/-- The nested-brace regex allows four levels of braces; a deeper opener
fails to match at that position and scanning resumes one character on. -/
def braceDepthLimit : Nat := 4

def braceScanAux : Nat → List Char → Nat → List Char → Option (List Char × List Char)
  | 0, _, _, _ => none
  | _ + 1, [], _, _ => none
  | fuel + 1, c :: r, depth, acc =>
    if c = lb then
      if braceDepthLimit < depth + 1 then none
      else braceScanAux fuel r (depth + 1) (c :: acc)
    else if c = rb then
      if depth = 1 then some ((c :: acc).reverse, r)
      else braceScanAux fuel r (depth - 1) (c :: acc)
    else braceScanAux fuel r depth (c :: acc)

def llamaBraceSpansAux : Nat → List Char → List (List Char)
  | 0, _ => []
  | _ + 1, [] => []
  | fuel + 1, c :: r =>
    if c = lb then
      match braceScanAux (r.length + 1) r 1 [c] with
      | some (span, rest) => span :: llamaBraceSpansAux fuel rest
      | none => llamaBraceSpansAux fuel r
    else llamaBraceSpansAux fuel r

def llamaBraceSpans (s : String) : List String :=
  (llamaBraceSpansAux (s.data.length + 1) s.data).map String.mk

def Llama31JsonToolParser.call_text (model_output : String) : Option String :=
  if isPrefixList python_tag.data model_output.data then
    some (strRemoveAll model_output python_tag)
  else if strContains model_output nameKey && strContains model_output parametersKey then
    some model_output
  else none

/-- Parse the first matched span: must be a dict with truthy `name` and
truthy `parameters`; the `name` must be a string for the pydantic model. -/
def llamaJsonCallOf (span : String) : Option ToolCall :=
  match json_loads span with
  | none => none
  | some tc =>
    match tc with
    | .obj entries =>
      let nm := jsonLookup nameKey entries
      let ps := jsonLookup parametersKey entries
      if !(jTruthyOpt nm) then none
      else if !(jTruthyOpt ps) then none
      else
        match nm, ps with
        | some (.str n2), some p2 => some ⟨⟨n2, Json.dumps p2⟩⟩
        | _, _ => none
    | _ => none

def Llama31JsonToolParser.extract_tool_calls (model_output : String) :
    ExtractedToolCallInformation :=
  match Llama31JsonToolParser.call_text model_output with
  | none => ⟨false, [], some model_output⟩
  | some ct =>
    if ct = "" then ⟨false, [], some model_output⟩
    else
      match (llamaBraceSpans ct).head? with
      | none => ⟨false, [], some model_output⟩
      | some first =>
        match llamaJsonCallOf first with
        | none => ⟨false, [], some model_output⟩
        | some c => ⟨true, [c], some (strRemoveAll ct first)⟩

/-! ## Streaming: state, inputs, emissions -/

/-- Per-request mutable bookkeeping, the fields set by
`Hermes2ProToolParser.__init__` (and by `Llama31JsonToolParser.__init__`,
which shares the same field set). -/
structure StreamState where
  current_tool_name_sent : Bool
  prev_tool_call_arr : List Json
  current_tool_id : Int
  current_tool_initial_sent : Bool
  streamed_args_for_tool : List String

def Hermes2ProToolParser.init : StreamState :=
  ⟨false, [], -1, false, []⟩

/-- `Llama31JsonToolParser.__init__` initializes `current_tool_id` to 1
(all the sibling parsers initialize it to -1). -/
def Llama31JsonToolParser.init : StreamState :=
  ⟨false, [], 1, false, []⟩

/-- One `(previous_text, current_text, delta_text, previous_token_ids,
current_token_ids, delta_token_ids)` tuple. -/
structure StepInput where
  previous_text : String
  current_text : String
  delta_text : String
  previous_token_ids : List Nat
  current_token_ids : List Nat
  delta_token_ids : List Nat

/-- The observable payload of a returned `DeltaMessage`: plain content, an
`InitialDeltaToolCall` carrying only the index, a function-name delta, or
an arguments delta. -/
inductive DeltaOut where
  | content : String → DeltaOut
  | initial : Int → DeltaOut
  | name : Int → String → DeltaOut
  | args : Int → String → DeltaOut
deriving DecidableEq

def hermes_start_id : Nat := 1

def hermes_end_id : Nat := 2

/-- Python `current_text.split(self.tool_call_start_token)[-1]`. -/
def lastPortion (cur : String) : String :=
  lastOrDefault (strSplitOn cur tool_call_start_token)

/-- Lines 327-336: store the freshly parsed value into
`prev_tool_call_arr` (replace in place when the id is the last slot, else
append); an `IndexError` on the replacing assignment discards the pending
delta, as the exception skips the `return`. -/
def hermesSave (st : StreamState) (j : Json) (d : Option DeltaOut) :
    StreamState × Option DeltaOut :=
  if st.current_tool_id = (st.prev_tool_call_arr.length : Int) - 1 then
    match pyListSet st.prev_tool_call_arr st.current_tool_id j with
    | none => (st, none)
    | some arr2 => ({ st with prev_tool_call_arr := arr2 }, d)
  else ({ st with prev_tool_call_arr := st.prev_tool_call_arr ++ [j] }, d)

/-- `self.streamed_args_for_tool[self.current_tool_id] += a`. -/
def streamedAppend (st : StreamState) (a : String) : Option StreamState :=
  match pyListGet st.streamed_args_for_tool st.current_tool_id with
  | none => none
  | some old =>
    match pyListSet st.streamed_args_for_tool st.current_tool_id (old ++ a) with
    | none => none
    | some l2 => some { st with streamed_args_for_tool := l2 }

/-- Lines 246-340, the arguments phase: push a dummy entry if the array is
short, read the previous and current `arguments`, then the four-way
truthiness split (nothing yet / disappeared / first chunk / diff), then
save the snapshot and return the delta. -/
def hermesArgs (st0 : StreamState) (delta_text : String) (ctc : Option Json) :
    StreamState × Option DeltaOut :=
  let st := if (st0.prev_tool_call_arr.length : Int) ≤ st0.current_tool_id then
      { st0 with prev_tool_call_arr := st0.prev_tool_call_arr ++ [Json.obj []] }
    else st0
  match pyListGet st.prev_tool_call_arr st.current_tool_id with
  | none => (st, none)
  | some prevEntry =>
    match pyGet prevEntry argumentsKey with
    | none => (st, none)
    | some prev_arguments =>
      match ctc with
      | none => (st, none)
      | some j =>
        match pyGet j argumentsKey with
        | none => (st, none)
        | some cur_arguments =>
          if !(jTruthyOpt cur_arguments) then hermesSave st j none
          else if !(jTruthyOpt prev_arguments) then
            match cur_arguments with
            | none => (st, none)
            | some curA =>
              let cj := Json.dumps curA
              match strIndexOf cj delta_text with
              | none => (st, none)
              | some i =>
                let ad := strTakeN cj (i + delta_text.length)
                match streamedAppend st ad with
                | none => (st, none)
                | some st2 => hermesSave st2 j (some (.args st2.current_tool_id ad))
          else
            match cur_arguments, prev_arguments with
            | some curA, some prevA =>
              let d := extract_intermediate_diff (Json.dumps curA) (Json.dumps prevA)
              match streamedAppend st d with
              | none => (st, none)
              | some st2 => hermesSave st2 j (some (.args st2.current_tool_id d))
            | _, _ => (st, none)

/-- Lines 176-194, the closing branch: diff the *last stored snapshot's*
arguments against what has been streamed (by deleting the streamed text
from its serialization) and flush it; a falsy snapshot falls through to
an unbound local variable, i.e. an exception caught as "no delta", with
no state change.  When the snapshot's arguments are truthy the delta is
returned unconditionally - the `if diff` test happens before the
deletion, so the emitted delta carries whatever the deletion left, even
the empty string. -/
def hermesClose (st : StreamState) : StreamState × Option DeltaOut :=
  match pyListGet st.prev_tool_call_arr st.current_tool_id with
  | none => (st, none)
  | some entry =>
    match pyGet entry argumentsKey with
    | none => (st, none)
    | some d0 =>
      match d0 with
      | none => (st, none)
      | some dj =>
        if !dj.truthy then (st, none)
        else
          match pyListGet st.streamed_args_for_tool st.current_tool_id with
          | none => (st, none)
          | some streamed =>
            (st, some (.args st.current_tool_id (strRemoveAll (Json.dumps dj) streamed)))

/-- Lines 203-340 after branch selection: tolerant-parse the portion (an
empty portion is falsy and parses to `None`), then initial delta, then
name delta, then the arguments phase.  In the name step the
`current_tool_name_sent` flag is assigned *before* the
`DeltaFunctionCall` is constructed; pydantic validates `name` as an
optional string, so a truthy non-string name raises during that
construction - the exception is caught as "no delta" but the flag stays
set, and the name delta of that call is never emitted. -/
def hermesMain (st : StreamState) (delta_text : String) (portion : Option String)
    (allowStr : Bool) : StreamState × Option DeltaOut :=
  let parsed : Option (Option Json) :=
    match portion with
    | none => some none
    | some p =>
      if p = "" then some none
      else
        match tolerant_loads allowStr p with
        | some j => some (some j)
        | none => none
  match parsed with
  | none => (st, none)
  | some ctc =>
    if !st.current_tool_initial_sent then
      ({ st with current_tool_initial_sent := true }, some (.initial st.current_tool_id))
    else if !st.current_tool_name_sent then
      match ctc with
      | none => (st, none)
      | some j =>
        match pyGet j nameKey with
        | none => (st, none)
        | some fn =>
          if jTruthyOpt fn then
            match fn with
            | some (Json.str s) =>
              ({ st with current_tool_name_sent := true },
                some (.name st.current_tool_id s))
            | _ => ({ st with current_tool_name_sent := true }, none)
          else (st, none)
    else
      match portion with
      | none => (st, none)
      | some _ => hermesArgs st delta_text ctc

/-- `Hermes2ProToolParser.extract_tool_calls_streaming`, one step: the
no-marker fast path, then classification by the four marker counts
(plain text between calls / a call opens / a call continues / a call
closes / anything else is an invariant violation answered with no delta
and no state change).  The `allowStr` flag is computed from the *old*
`current_tool_name_sent`, before the new-call reset, exactly as the
Python computes `flags` before the branch. -/
def Hermes2ProToolParser.extract_tool_calls_streaming (st : StreamState)
    (inp : StepInput) : StreamState × Option DeltaOut :=
  if !(inp.current_token_ids.contains hermes_start_id) then
    (st, some (.content inp.delta_text))
  else
    let pS := inp.previous_token_ids.count hermes_start_id
    let pE := inp.previous_token_ids.count hermes_end_id
    let cS := inp.current_token_ids.count hermes_start_id
    let cE := inp.current_token_ids.count hermes_end_id
    if cS = cE ∧ pE = cE then (st, some (.content inp.delta_text))
    else
      let allowStr := st.current_tool_name_sent
      if cE < cS ∧ pS < cS then
        let portion : Option String :=
          if 1 < inp.delta_token_ids.length then some (lastPortion inp.current_text)
          else none
        let st1 :=
          { st with
            current_tool_id := st.current_tool_id + 1,
            current_tool_name_sent := false,
            current_tool_initial_sent := false,
            streamed_args_for_tool := st.streamed_args_for_tool ++ [""] }
        hermesMain st1 inp.delta_text portion allowStr
      else if cE < cS ∧ cS = pS then
        hermesMain st inp.delta_text (some (lastPortion inp.current_text)) allowStr
      else if cS = cE ∧ pE < cE then hermesClose st
      else (st, none)

/-! ## Driving a whole stream -/

/-- One arriving chunk: its text and its token ids. -/
structure Chunk where
  text : String
  ids : List Nat

def mkStepInput (accT : String) (accI : List Nat) (c : Chunk) : StepInput :=
  ⟨accT, accT ++ c.text, c.text, accI, accI ++ c.ids, c.ids⟩

/-- Feed the chunks in arrival order, threading the cumulative text and
token ids, collecting every returned delta in emission order. -/
def hermesRun (st : StreamState) (accT : String) (accI : List Nat) :
    List Chunk → StreamState × List DeltaOut
  | [] => (st, [])
  | c :: cs =>
    let r := Hermes2ProToolParser.extract_tool_calls_streaming st (mkStepInput accT accI c)
    let rest := hermesRun r.1 (accT ++ c.text) (accI ++ c.ids) cs
    (rest.1, (match r.2 with | some d => [d] | none => []) ++ rest.2)

def hermesTrace (cs : List Chunk) : List DeltaOut :=
  (hermesRun Hermes2ProToolParser.init "" [] cs).2

/-- Concatenation of all emitted `arguments` deltas for one index, in
emission order. -/
def argsConcat (idx : Int) (l : List DeltaOut) : String :=
  String.join (l.filterMap (fun d =>
    match d with
    | .args i a => if i = idx then some a else none
    | _ => none))

def countInitialFor (idx : Int) (l : List DeltaOut) : Nat :=
  (l.filter (fun d => match d with | .initial i => i = idx | _ => false)).length

def countNameFor (idx : Int) (l : List DeltaOut) : Nat :=
  (l.filter (fun d => match d with | .name i _ => i = idx | _ => false)).length

/-! ## Concrete streaming sequences used in the statements below -/

/-- A single Hermes call whose last chunk carries the final argument bytes
together with the end marker. -/
def tailLossChunks : List Chunk :=
  [⟨"<tool_call>\x7b\"name\": \"f\", \"arguments\": \x7b\"a\": ", [1, 0, 0]⟩,
   ⟨" ", [0]⟩,
   ⟨"1", [0]⟩,
   ⟨", \"b\": 2\x7d\x7d</tool_call>", [0, 0, 2]⟩]

def tailLossFullText : String := String.join (tailLossChunks.map (fun c => c.text))

def tailLossStreamed : String := "\x7b\"a\": 1\x7d"

def tailLossFinalArgs : String := "\x7b\"a\": 1, \"b\": 2\x7d"

/-- A call whose `"name"` field is the number `5`: the name parses and is
truthy, so the name step sets `current_tool_name_sent`, but the pydantic
construction of the name delta raises on the non-string value; argument
deltas follow with no name delta ever. -/
def nonStringNameChunks : List Chunk :=
  [⟨"<tool_call>\x7b\"name\": 5, \"arguments\": \x7b\"a\": ", [1, 0, 0]⟩,
   ⟨" ", [0]⟩,
   ⟨"1", [0]⟩]

/-- Two well-formed framed spans with a malformed span between them. -/
def malformedMiddleText : String :=
  "<tool_call>\x7b\"name\": \"a\", \"arguments\": \x7b\x7d\x7d</tool_call><tool_call>nope</tool_call><tool_call>\x7b\"name\": \"b\", \"arguments\": \x7b\x7d\x7d</tool_call>"

/-- Contains the `"name"` and `"parameters"` markers but no parseable
span. -/
def bareMarkersText : String := "\"name\" \"parameters\""

/-- Mid-call state with a stored snapshot whose arguments are truthy. -/
def argsPresentState : StreamState :=
  ⟨true,
   [Json.obj [(nameKey, Json.str "f"), (argumentsKey, Json.obj [("a", Json.num 1)])]],
   0, true, ["\x7b\"a\": 1"]⟩

/-- A continuing-call step whose portion parses to a value with no
`arguments` member. -/
def argsAbsentInput : StepInput :=
  ⟨"<tool_call>\x7b\"name\": \"g", "<tool_call>\x7b\"name\": \"g\"", "\"",
   [1, 0], [1, 0, 0], [0]⟩

/-- C1: the claim asserts that for every streaming sequence the
concatenated arguments deltas of an index equal the canonical
serialization of that call's final arguments.  The code violates this:
on `tailLossChunks` the emitted deltas concatenate to `{"a": 1}` while
the call's final arguments (as the one-shot extractor of the very same
text serializes them) are `{"a": 1, "b": 2}` — the closing step diffs
against the stale stored snapshot instead of the fully closed parse, so
argument bytes arriving in the same chunk as the end marker are lost. -/
theorem hermes_close_drops_unstreamed_tail :
    argsConcat 0 (hermesTrace tailLossChunks) = tailLossStreamed ∧
    (Hermes2ProToolParser.extract_tool_calls tailLossFullText).tool_calls =
      [⟨⟨"f", tailLossFinalArgs⟩⟩] ∧
    tailLossStreamed ≠ tailLossFinalArgs := by
  refine ⟨by decide, by decide, by decide⟩

/-- C2 (counterexample): on `nonStringNameChunks` the emission trace is
an initial delta followed directly by an arguments delta: the name delta
is emitted zero times for index 0 even though an arguments delta is,
refuting both "each of the initial and name deltas is emitted exactly
once" and "the name delta is emitted before any arguments delta". -/
theorem hermes_args_delta_without_name_delta :
    hermesTrace nonStringNameChunks =
      [DeltaOut.initial 0, DeltaOut.args 0 "\x7b\"a\": 1"] ∧
    countNameFor 0 (hermesTrace nonStringNameChunks) = 0 ∧
    countInitialFor 0 (hermesTrace nonStringNameChunks) = 1 := by
  refine ⟨by decide, by decide, by decide⟩

/-- C3 (counterexample): the Hermes one-shot extractor parses all framed
spans inside a single try, so one malformed span between two valid ones
aborts the whole extraction: `tools_called` is false and no call is
returned, refuting "the result still contains both valid calls". -/
theorem hermes_malformed_span_aborts_extraction :
    (Hermes2ProToolParser.extract_tool_calls malformedMiddleText).tools_called = false ∧
    (Hermes2ProToolParser.extract_tool_calls malformedMiddleText).tool_calls = [] ∧
    (Hermes2ProToolParser.extract_tool_calls malformedMiddleText).content =
      some malformedMiddleText := by
  refine ⟨by decide, by decide, by decide⟩

/-- C6 (counterexample): on a step where the stored snapshot has truthy
arguments but the newly parsed value has none, the code emits nothing —
yet it still overwrites the stored snapshot for the index with the new
value (dropping the recorded arguments), refuting "does not update any
state". -/
theorem hermes_args_absent_overwrites_snapshot :
    (Hermes2ProToolParser.extract_tool_calls_streaming argsPresentState argsAbsentInput).2
      = none ∧
    (Hermes2ProToolParser.extract_tool_calls_streaming argsPresentState
        argsAbsentInput).1.prev_tool_call_arr.map Json.dumps ≠
      argsPresentState.prev_tool_call_arr.map Json.dumps ∧
    (Hermes2ProToolParser.extract_tool_calls_streaming argsPresentState
        argsAbsentInput).1.streamed_args_for_tool =
      argsPresentState.streamed_args_for_tool ∧
    (Hermes2ProToolParser.extract_tool_calls_streaming argsPresentState
        argsAbsentInput).1.current_tool_id = argsPresentState.current_tool_id := by
  refine ⟨by decide, by decide, by decide, by decide⟩

/-- C7 (counterexample): the semicolon-framed Llama 3.1 one-shot extractor
returns `tools_called = true` with an empty `tool_calls` when the marker
substrings are present but no span parses, refuting the invariant
`tools_called == (tool_calls is non-empty)`. -/
theorem llama31_tools_called_true_with_empty_calls :
    (Llama31ToolParser.extract_tool_calls bareMarkersText).tools_called = true ∧
    (Llama31ToolParser.extract_tool_calls bareMarkersText).tool_calls = [] := by
  refine ⟨by decide, by decide⟩

/-- C8: the claim says `current_index` starts at -1 in every strategy's
stream state; `Llama31JsonToolParser.__init__` initializes it to 1
(while the Hermes parser does start at -1). -/
theorem llama31json_initial_index_is_one :
    Llama31JsonToolParser.init.current_tool_id = 1 ∧
    Llama31JsonToolParser.init.current_tool_id ≠ -1 ∧
    Hermes2ProToolParser.init.current_tool_id = -1 := by
  refine ⟨rfl, by decide, rfl⟩

/-- The spec's example input. -/
def exampleCallText : String :=
  "<tool_call>\x7b\"name\": \"get_weather\", \"arguments\": \x7b\"city\": \"Paris\"\x7d\x7d</tool_call>"

def exampleCallArgs : String := "\x7b\"city\": \"Paris\"\x7d"

/-! ## Helper lemmas -/

theorem optMapAll_length {α β : Type} (f : α → Option β) :
    ∀ (l : List α) (r : List β), optMapAll f l = some r → r.length = l.length := by
  intro l
  induction l with
  | nil => intro r h; simp [optMapAll] at h; simp [← h]
  | cons a t ih =>
    intro r h
    simp only [optMapAll] at h
    cases hfa : f a with
    | none => rw [hfa] at h; exact absurd h (by simp)
    | some b =>
      rw [hfa] at h
      cases hrest : optMapAll f t with
      | none => rw [hrest] at h; exact absurd h (by simp)
      | some bt =>
        rw [hrest] at h
        simp only [Option.some.injEq] at h
        subst h
        simp [ih bt hrest]

theorem optMapAll_get {α β : Type} (f : α → Option β) :
    ∀ (l : List α) (r : List β), optMapAll f l = some r →
      ∀ (i : Nat) (a : α), l.get? i = some a →
        ∃ b, f a = some b ∧ r.get? i = some b := by
  intro l
  induction l with
  | nil => intro r _ i a ha; simp at ha
  | cons x t ih =>
    intro r h i a ha
    simp only [optMapAll] at h
    cases hfx : f x with
    | none => rw [hfx] at h; exact absurd h (by simp)
    | some b =>
      rw [hfx] at h
      cases hrest : optMapAll f t with
      | none => rw [hrest] at h; exact absurd h (by simp)
      | some bt =>
        rw [hrest] at h
        simp only [Option.some.injEq] at h
        subst h
        cases i with
        | zero => simp at ha; subst ha; exact ⟨b, hfx, rfl⟩
        | succ n =>
          simp only [List.get?] at ha ⊢
          exact ih bt hrest n a ha

theorem hermesSpansAux_ne_nil (fuel : Nat) (l : List Char)
    (h : (subIndex tool_call_start_token.data l).isSome = true) :
    hermesSpansAux (fuel + 1) l ≠ [] := by
  simp only [hermesSpansAux]
  cases hidx : subIndex tool_call_start_token.data l with
  | none => rw [hidx] at h; simp at h
  | some i =>
    dsimp only
    cases hj : subIndex tool_call_end_token.data
        (l.drop (i + tool_call_start_token.data.length)) with
    | none => simp
    | some j => simp

theorem hermesSpans_ne_nil (s : String) (h : strContains s tool_call_start_token = true) :
    hermesSpans s ≠ [] := by
  unfold strContains strIndexOf at h
  unfold hermesSpans
  have := hermesSpansAux_ne_nil s.data.length s.data h
  simp only [ne_eq, List.map_eq_nil_iff]
  exact this

/-- C7 (amended): the Hermes one-shot extractor does satisfy the
invariant `tools_called == (tool_calls is non-empty)`: the success path
builds one call per framed span and a present start marker frames at
least one span, while every failure path returns `false` with an empty
list.  (The semicolon-framed Llama 3.1 extractor violates the invariant,
see the counterexample.) -/
theorem hermes_tools_called_iff_nonempty (s : String) :
    (Hermes2ProToolParser.extract_tool_calls s).tools_called = true ↔
      (Hermes2ProToolParser.extract_tool_calls s).tool_calls ≠ [] := by
  unfold Hermes2ProToolParser.extract_tool_calls
  cases hc : strContains s tool_call_start_token with
  | false => simp
  | true =>
    simp only [Bool.not_true, Bool.false_eq_true, if_false]
    cases hm : optMapAll mkHermesToolCall (hermesSpans s) with
    | none => simp
    | some calls =>
      dsimp only
      constructor
      · intro _ hnil
        have hlen := optMapAll_length mkHermesToolCall (hermesSpans s) calls hm
        have hne := hermesSpans_ne_nil s hc
        rw [hnil] at hlen
        simp at hlen
        exact hne (List.length_eq_zero.mp hlen.symm)
      · intro _
        rfl

/-- C4: for any text whose framed spans all parse (each to a dict with a
string `name` and an `arguments` member) the one-shot result is
`tools_called = true` with one call per span, in document order, each
carrying the parsed name and the arguments re-serialized to a JSON
string; and the spec's example input yields exactly one `get_weather`
call with arguments `{"city": "Paris"}` and content `None`. -/
theorem hermes_one_shot_completeness :
    (∀ (text : String) (calls : List ToolCall),
        strContains text tool_call_start_token = true →
        optMapAll mkHermesToolCall (hermesSpans text) = some calls →
        (Hermes2ProToolParser.extract_tool_calls text).tools_called = true ∧
        (Hermes2ProToolParser.extract_tool_calls text).tool_calls = calls ∧
        calls.length = (hermesSpans text).length ∧
        (∀ (i : Nat) (span : String), (hermesSpans text).get? i = some span →
          ∃ c, mkHermesToolCall span = some c ∧ calls.get? i = some c)) ∧
    Hermes2ProToolParser.extract_tool_calls exampleCallText =
      ⟨true, [⟨⟨"get_weather", exampleCallArgs⟩⟩], none⟩ := by
  constructor
  · intro text calls h1 h2
    refine ⟨?_, ?_, optMapAll_length _ _ _ h2, optMapAll_get _ _ _ h2⟩
    · unfold Hermes2ProToolParser.extract_tool_calls
      rw [h1, h2]
      rfl
    · unfold Hermes2ProToolParser.extract_tool_calls
      rw [h1, h2]
      rfl
  · decide

/-- C5: a streaming step whose marker-count combination matches none of
rules 1-4 (the start marker is present, but the counts fit neither the
plain-text case, the call-open case, the call-continue case nor the
call-close case - for example an end count exceeding the start count)
returns no delta and leaves the state bit-for-bit unchanged; the
embedded step is a total function, so processing continues without
raising. -/
theorem hermes_invariant_violation_noop (st : StreamState) (inp : StepInput)
    (h1 : inp.current_token_ids.contains hermes_start_id = true)
    (h2 : ¬(inp.current_token_ids.count hermes_start_id = inp.current_token_ids.count hermes_end_id ∧
            inp.previous_token_ids.count hermes_end_id = inp.current_token_ids.count hermes_end_id))
    (h3 : ¬(inp.current_token_ids.count hermes_end_id < inp.current_token_ids.count hermes_start_id ∧
            inp.previous_token_ids.count hermes_start_id < inp.current_token_ids.count hermes_start_id))
    (h4 : ¬(inp.current_token_ids.count hermes_end_id < inp.current_token_ids.count hermes_start_id ∧
            inp.current_token_ids.count hermes_start_id = inp.previous_token_ids.count hermes_start_id))
    (h5 : ¬(inp.current_token_ids.count hermes_start_id = inp.current_token_ids.count hermes_end_id ∧
            inp.previous_token_ids.count hermes_end_id < inp.current_token_ids.count hermes_end_id)) :
    Hermes2ProToolParser.extract_tool_calls_streaming st inp = (st, none) := by
  unfold Hermes2ProToolParser.extract_tool_calls_streaming
  rw [h1]
  simp only [Bool.not_true, Bool.false_eq_true, if_false]
  rw [if_neg h2, if_neg h3, if_neg h4, if_neg h5]

def violInput : StepInput := ⟨"", "x", "x", [1, 2], [1, 2, 2], [2]⟩

theorem hermes_invariant_violation_noop_witness :
    Hermes2ProToolParser.extract_tool_calls_streaming Hermes2ProToolParser.init violInput
      = (Hermes2ProToolParser.init, none) :=
  hermes_invariant_violation_noop _ _ (by decide) (by decide) (by decide) (by decide) (by decide)

theorem containsAppendNat (a : Nat) (l1 l2 : List Nat) :
    (l1 ++ l2).contains a = (l1.contains a || l2.contains a) := by
  induction l1 with
  | nil => simp
  | cons x t ih => simp_all [List.contains_cons, Bool.or_assoc]

theorem hermesRun_no_marker (chunks : List Chunk) :
    ∀ (st : StreamState) (accT : String) (accI : List Nat),
      accI.contains hermes_start_id = false →
      (∀ c ∈ chunks, c.ids.contains hermes_start_id = false) →
      hermesRun st accT accI chunks = (st, chunks.map (fun c => DeltaOut.content c.text)) := by
  induction chunks with
  | nil => intro st accT accI _ _; rfl
  | cons c cs ih =>
    intro st accT accI hacc hall
    have hc : c.ids.contains hermes_start_id = false := hall c (List.mem_cons_self c cs)
    have hcur : (accI ++ c.ids).contains hermes_start_id = false := by
      rw [containsAppendNat, hacc, hc]; rfl
    have hstep : Hermes2ProToolParser.extract_tool_calls_streaming st (mkStepInput accT accI c)
        = (st, some (DeltaOut.content c.text)) := by
      unfold Hermes2ProToolParser.extract_tool_calls_streaming
      have : (mkStepInput accT accI c).current_token_ids = accI ++ c.ids := rfl
      rw [this, hcur]
      rfl
    simp only [hermesRun]
    rw [hstep]
    dsimp only
    rw [ih st (accT ++ c.text) (accI ++ c.ids) hcur (fun d hd => hall d (List.mem_cons_of_mem c hd))]
    rfl

/-- C9: a stream none of whose chunks carries the tool-call start token
reproduces every chunk as a content delta, and the concatenation of the
emitted content deltas is the full generated text. -/
theorem hermes_no_marker_passthrough (chunks : List Chunk)
    (h : ∀ c ∈ chunks, c.ids.contains hermes_start_id = false) :
    hermesTrace chunks = chunks.map (fun c => DeltaOut.content c.text) ∧
    String.join ((hermesTrace chunks).filterMap (fun d =>
      match d with | DeltaOut.content s => some s | _ => none)) =
      String.join (chunks.map (fun c => c.text)) := by
  have hrun := hermesRun_no_marker chunks Hermes2ProToolParser.init "" [] rfl h
  unfold hermesTrace
  rw [hrun]
  refine ⟨rfl, ?_⟩
  have haux : ∀ (l : List Chunk),
      List.filterMap ((fun d => match d with | DeltaOut.content s => some s | _ => none) ∘
        fun c => DeltaOut.content c.text) l = List.map (fun c => c.text) l := by
    intro l
    induction l with
    | nil => rfl
    | cons x t ih2 => simp only [List.filterMap_cons, List.map_cons, Function.comp_apply, ih2]
  rw [List.filterMap_map, haux]

def helloChunks : List Chunk := [⟨"Hello ", [7]⟩, ⟨"world", [8, 9]⟩]

theorem hermes_no_marker_passthrough_witness :
    hermesTrace helloChunks = [DeltaOut.content "Hello ", DeltaOut.content "world"] ∧
    String.join ((hermesTrace helloChunks).filterMap (fun d =>
      match d with | DeltaOut.content s => some s | _ => none)) = "Hello world" := by
  have := hermes_no_marker_passthrough helloChunks (by decide)
  exact ⟨this.1, by rw [this.2]; rfl⟩

theorem hermes_one_shot_completeness_witness :
    (Hermes2ProToolParser.extract_tool_calls exampleCallText).tools_called = true ∧
    (Hermes2ProToolParser.extract_tool_calls exampleCallText).tool_calls =
      [⟨⟨"get_weather", exampleCallArgs⟩⟩] := by
  have h := hermes_one_shot_completeness.1 exampleCallText
    [⟨⟨"get_weather", exampleCallArgs⟩⟩] (by decide) (by decide)
  exact ⟨h.1, h.2.1⟩

/-- C10: the brace-balance-scan one-shot extractor returns at most one
tool call; when it fails (no call text, no balanced span, or a first
span without truthy `name` and `parameters`) the result is
`tools_called = false` with the whole text as content; and any returned
call is built from the *first* balanced-brace span of the call text. -/
theorem llama31json_at_most_one_call :
    ∀ s : String,
      (Llama31JsonToolParser.extract_tool_calls s).tool_calls.length ≤ 1 ∧
      ((Llama31JsonToolParser.extract_tool_calls s).tools_called = false →
        (Llama31JsonToolParser.extract_tool_calls s).tool_calls = [] ∧
        (Llama31JsonToolParser.extract_tool_calls s).content = some s) ∧
      (∀ c, (Llama31JsonToolParser.extract_tool_calls s).tool_calls = [c] →
        ∃ ct first, Llama31JsonToolParser.call_text s = some ct ∧
          (llamaBraceSpans ct).head? = some first ∧ llamaJsonCallOf first = some c) := by
  intro s
  unfold Llama31JsonToolParser.extract_tool_calls
  cases hct : Llama31JsonToolParser.call_text s with
  | none => simp
  | some ct =>
    dsimp only
    by_cases hemp : ct = ""
    · rw [if_pos hemp]; simp
    · rw [if_neg hemp]
      cases hh : (llamaBraceSpans ct).head? with
      | none => simp
      | some first =>
        dsimp only
        cases hcall : llamaJsonCallOf first with
        | none => simp
        | some c =>
          dsimp only
          refine ⟨by simp, by simp, ?_⟩
          intro c2 hc2
          simp only [List.cons.injEq, and_true] at hc2
          exact ⟨ct, first, rfl, hh, by rw [hcall, hc2]⟩

def twoObjectsText : String :=
  "\x7b\"name\": \"f\", \"parameters\": \x7b\"x\": 1\x7d\x7d \x7b\"name\": \"g\", \"parameters\": \x7b\"y\": 2\x7d\x7d"

def twoObjectsArgs : String := "\x7b\"x\": 1\x7d"

theorem llama31json_at_most_one_call_witness :
    (Llama31JsonToolParser.extract_tool_calls twoObjectsText).tool_calls.length ≤ 1 ∧
    (∃ ct first, Llama31JsonToolParser.call_text twoObjectsText = some ct ∧
      (llamaBraceSpans ct).head? = some first ∧
      llamaJsonCallOf first = some ⟨⟨"f", twoObjectsArgs⟩⟩) :=
  ⟨(llama31json_at_most_one_call twoObjectsText).1,
    (llama31json_at_most_one_call twoObjectsText).2.2 ⟨⟨"f", twoObjectsArgs⟩⟩ (by decide)⟩

/-- C3 (amended): in the semicolon-framed Llama 3.1 one-shot extractor a
malformed span between two valid spans is skipped: both valid calls are
returned.  (In the Hermes delimiter extractor one malformed span aborts
the whole extraction - see the counterexample - so the claim holds only
for the semicolon-framed variant.) -/
theorem llama31_skips_malformed_between_valid
    (s a m b : String) (ja jb : Json) (ca cb : ToolCall)
    (hsplit : strSplitOn s semicolonSep = [a, m, b])
    (hname : strContains s quotedName = true)
    (hparam : strContains s quotedParameters = true)
    (hpa : json_loads a = some ja) (hca : mkLlamaToolCall ja = some ca)
    (hm : json_loads m = none)
    (hpb : json_loads b = some jb) (hcb : mkLlamaToolCall jb = some cb) :
    Llama31ToolParser.extract_tool_calls s = ⟨true, [ca, cb], some ""⟩ := by
  unfold Llama31ToolParser.extract_tool_calls
  rw [hname, hparam, hsplit]
  simp only [Bool.and_true, Bool.not_true, Bool.false_eq_true, if_false,
    List.filterMap_cons, hpa, hm, hpb, List.filterMap_nil, hca, hcb]

def sandwichText : String :=
  "\x7b\"name\": \"a\", \"parameters\": \x7b\x7d\x7d; nope; \x7b\"name\": \"b\", \"parameters\": \x7b\"k\": true\x7d\x7d"

theorem llama31_skips_malformed_between_valid_witness :
    Llama31ToolParser.extract_tool_calls sandwichText =
      ⟨true, [⟨⟨"a", "\x7b\x7d"⟩⟩, ⟨⟨"b", "\x7b\"k\": true\x7d"⟩⟩], some ""⟩ := by
  refine llama31_skips_malformed_between_valid sandwichText
    "\x7b\"name\": \"a\", \"parameters\": \x7b\x7d\x7d" "nope"
    "\x7b\"name\": \"b\", \"parameters\": \x7b\"k\": true\x7d\x7d"
    (Json.obj [(nameKey, Json.str "a"), (parametersKey, Json.obj [])])
    (Json.obj [(nameKey, Json.str "b"), (parametersKey, Json.obj [("k", Json.bool true)])])
    ⟨⟨"a", "\x7b\x7d"⟩⟩ ⟨⟨"b", "\x7b\"k\": true\x7d"⟩⟩
    (by decide) (by decide) (by decide) rfl rfl rfl rfl rfl

/-- C6 (amended): on a continuing-call step where the stored snapshot
for the current index has truthy arguments but the newly parsed value
has none, the step emits nothing and leaves `current_tool_id` and
`streamed_args_for_tool` unchanged - but, contrary to the claim, it
still overwrites the stored snapshot with the newly parsed value. -/
theorem hermes_args_absent_emits_nothing_updates_snapshot
    (st : StreamState) (inp : StepInput) (j pv pa : Json) (ca : Option Json)
    (arr2 : List Json)
    (hcontains : inp.current_token_ids.contains hermes_start_id = true)
    (hD1 : inp.current_token_ids.count hermes_end_id < inp.current_token_ids.count hermes_start_id)
    (hD2 : inp.current_token_ids.count hermes_start_id = inp.previous_token_ids.count hermes_start_id)
    (hinit : st.current_tool_initial_sent = true)
    (hname : st.current_tool_name_sent = true)
    (hport : ¬ lastPortion inp.current_text = "")
    (hparse : tolerant_loads true (lastPortion inp.current_text) = some j)
    (hlen : ¬ ((st.prev_tool_call_arr.length : Int) ≤ st.current_tool_id))
    (hget : pyListGet st.prev_tool_call_arr st.current_tool_id = some pv)
    (hprev : pyGet pv argumentsKey = some (some pa))
    (hpa : pa.truthy = true)
    (hcur : pyGet j argumentsKey = some ca)
    (hcaf : jTruthyOpt ca = false)
    (hsave : st.current_tool_id = (st.prev_tool_call_arr.length : Int) - 1)
    (hset : pyListSet st.prev_tool_call_arr st.current_tool_id j = some arr2) :
    Hermes2ProToolParser.extract_tool_calls_streaming st inp =
      ({ st with prev_tool_call_arr := arr2 }, none) := by
  have hB : ¬(inp.current_token_ids.count hermes_start_id = inp.current_token_ids.count hermes_end_id ∧
      inp.previous_token_ids.count hermes_end_id = inp.current_token_ids.count hermes_end_id) := by
    intro h; exact absurd h.1.symm (Nat.ne_of_lt hD1)
  have hC : ¬(inp.current_token_ids.count hermes_end_id < inp.current_token_ids.count hermes_start_id ∧
      inp.previous_token_ids.count hermes_start_id < inp.current_token_ids.count hermes_start_id) := by
    intro h; rw [← hD2] at h; exact absurd h.2 (lt_irrefl _)
  unfold Hermes2ProToolParser.extract_tool_calls_streaming
  rw [hcontains]
  simp only [Bool.not_true, Bool.false_eq_true, if_false]
  rw [if_neg hB, if_neg hC, if_pos ⟨hD1, hD2⟩]
  rw [hname]
  unfold hermesMain
  dsimp only
  rw [if_neg hport, hparse]
  dsimp only
  rw [hinit, hname]
  simp only [Bool.not_true, Bool.false_eq_true, if_false]
  unfold hermesArgs
  rw [if_neg hlen]
  dsimp only
  rw [hget]
  dsimp only
  rw [hprev]
  dsimp only
  rw [hcur]
  dsimp only
  rw [hcaf]
  simp only [Bool.not_false, if_true]
  unfold hermesSave
  rw [if_pos hsave, hset]
  dsimp only
  rw [hname, hinit]


theorem hermes_args_absent_emits_nothing_updates_snapshot_witness :
    Hermes2ProToolParser.extract_tool_calls_streaming argsPresentState argsAbsentInput =
      ({ argsPresentState with
          prev_tool_call_arr := [Json.obj [(nameKey, Json.str "g")]] }, none) :=
  hermes_args_absent_emits_nothing_updates_snapshot argsPresentState argsAbsentInput
    (Json.obj [(nameKey, Json.str "g")])
    (Json.obj [(nameKey, Json.str "f"), (argumentsKey, Json.obj [("a", Json.num 1)])])
    (Json.obj [("a", Json.num 1)]) none [Json.obj [(nameKey, Json.str "g")]]
    (by decide) (by decide) (by decide) rfl rfl (by decide) rfl (by decide)
    rfl rfl rfl rfl rfl (by decide) rfl

/-! ## Per-index emission ordering: the phase automaton -/

inductive TPhase where
  | ready : TPhase
  | gotInitial : TPhase
  | gotName : TPhase
deriving DecidableEq

/-- Legal transitions of the per-index delta protocol: one initial first,
then at most one name, then any number of argument deltas; an argument
delta may also follow the initial directly (the name construction can
raise after `current_tool_name_sent` is set), after which a name can no
longer appear.  Emissions for other indices and content deltas are
ignored. -/
def phaseStep (idx : Int) (p : TPhase) : DeltaOut → Option TPhase
  | .content _ => some p
  | .initial i =>
    if i = idx then (match p with | .ready => some .gotInitial | _ => none) else some p
  | .name i _ =>
    if i = idx then (match p with | .gotInitial => some .gotName | _ => none) else some p
  | .args i _ =>
    if i = idx then
      (match p with
       | .gotInitial => some .gotName
       | .gotName => some .gotName
       | _ => none)
    else some p

def phaseRun (idx : Int) : List DeltaOut → TPhase → Option TPhase
  | [], p => some p
  | d :: t, p =>
    match phaseStep idx p d with
    | none => none
    | some q => phaseRun idx t q

def emitList : Option DeltaOut → List DeltaOut
  | some d => [d]
  | none => []

theorem phaseRun_append (idx : Int) (a : List DeltaOut) :
    ∀ (b : List DeltaOut) (p : TPhase),
      phaseRun idx (a ++ b) p =
        (match phaseRun idx a p with
         | none => none
         | some q => phaseRun idx b q) := by
  induction a with
  | nil => intro b p; rfl
  | cons d t ih =>
    intro b p
    simp only [List.cons_append, phaseRun]
    cases phaseStep idx p d with
    | none => rfl
    | some q => exact ih b q

/-- The phases the automaton may be in for the current index, read off
the per-call flags.  With both flags set the automaton sits at
`gotInitial` when the name delta was swallowed by the pydantic
validation and at `gotName` when it was emitted; either way no further
name delta is legal, matching the set `current_tool_name_sent`. -/
def phaseOK (st : StreamState) (p : TPhase) : Prop :=
  if st.current_tool_initial_sent = false then p = TPhase.ready
  else if st.current_tool_name_sent = false then p = TPhase.gotInitial
  else p = TPhase.gotInitial ∨ p = TPhase.gotName

/-- Relation between a state and an automaton phase for one index: the
phase is constrained for the current index and pinned for indices not
yet opened; already-closed indices receive no further emissions, so any
phase is acceptable there. -/
def goodStart (st : StreamState) (idx : Int) (p : TPhase) : Prop :=
  (st.current_tool_id < idx → p = TPhase.ready) ∧
  (idx = st.current_tool_id → phaseOK st p)

/-- The state invariant carried through a run. -/
structure HInv (st : StreamState) (accI : List Nat) : Prop where
  cur_ge : -1 ≤ st.current_tool_id
  neg_counts : st.current_tool_id = -1 →
    accI.count hermes_start_id ≤ accI.count hermes_end_id
  arr_len : (st.prev_tool_call_arr.length : Int) ≤ st.current_tool_id + 1
  name_imp : st.current_tool_name_sent = true → st.current_tool_initial_sent = true
  arr_name : st.current_tool_name_sent = false → 0 ≤ st.current_tool_id →
    (st.prev_tool_call_arr.length : Int) ≤ st.current_tool_id

theorem pyListGet_nil {α : Type} (i : Int) : pyListGet ([] : List α) i = none := by
  unfold pyListGet
  split
  · rfl
  · split
    · rfl
    · rfl

theorem pyListGet_none_of_len_le {α : Type} (l : List α) (i : Int)
    (h0 : 0 ≤ i) (h : (l.length : Int) ≤ i) : pyListGet l i = none := by
  unfold pyListGet
  rw [if_pos h0]
  apply List.get?_eq_none.mpr
  omega

theorem pyListSet_length {α : Type} (l : List α) (i : Int) (v : α) (l2 : List α)
    (h : pyListSet l i v = some l2) : l2.length = l.length := by
  simp only [pyListSet] at h
  split at h <;> split at h <;>
    first
      | (injection h with h2; rw [← h2]; simp)
      | cases h

theorem hermesSave_facts (st : StreamState) (j : Json) (d : Option DeltaOut)
    (st' : StreamState) (out : Option DeltaOut)
    (h : hermesSave st j d = (st', out)) :
    st'.current_tool_id = st.current_tool_id ∧
    st'.current_tool_name_sent = st.current_tool_name_sent ∧
    st'.current_tool_initial_sent = st.current_tool_initial_sent ∧
    st'.streamed_args_for_tool = st.streamed_args_for_tool ∧
    ((st.prev_tool_call_arr.length : Int) ≤ st.current_tool_id + 1 →
      (st'.prev_tool_call_arr.length : Int) ≤ st.current_tool_id + 1) ∧
    (out = d ∨ out = none) := by
  unfold hermesSave at h
  split at h
  · rename_i heq
    split at h
    · cases h
      exact ⟨rfl, rfl, rfl, rfl, fun hl => hl, Or.inr rfl⟩
    · rename_i arr2 hset
      cases h
      refine ⟨rfl, rfl, rfl, rfl, fun _ => ?_, Or.inl rfl⟩
      have := pyListSet_length st.prev_tool_call_arr st.current_tool_id j arr2 hset
      simp only []
      omega
  · rename_i hne
    cases h
    refine ⟨rfl, rfl, rfl, rfl, fun hl => ?_, Or.inl rfl⟩
    simp only [List.length_append, List.length_cons, List.length_nil]
    push_cast
    omega

theorem streamedAppend_facts (st : StreamState) (a : String) (st2 : StreamState)
    (h : streamedAppend st a = some st2) :
    st2.current_tool_id = st.current_tool_id ∧
    st2.current_tool_name_sent = st.current_tool_name_sent ∧
    st2.current_tool_initial_sent = st.current_tool_initial_sent ∧
    st2.prev_tool_call_arr = st.prev_tool_call_arr := by
  unfold streamedAppend at h
  split at h
  · cases h
  · split at h
    · cases h
    · cases h
      exact ⟨rfl, rfl, rfl, rfl⟩

theorem hermesClose_facts (st : StreamState) (st' : StreamState) (out : Option DeltaOut)
    (h : hermesClose st = (st', out)) :
    st' = st ∧
    (out = none ∨
      ((∃ a, out = some (DeltaOut.args st.current_tool_id a)) ∧
        ∃ e, pyListGet st.prev_tool_call_arr st.current_tool_id = some e)) := by
  unfold hermesClose at h
  repeat' split at h
  all_goals cases h
  all_goals
    first
      | exact ⟨rfl, Or.inl rfl⟩
      | exact ⟨rfl, Or.inr ⟨⟨_, rfl⟩, ⟨_, by assumption⟩⟩⟩

theorem hermesArgs_facts (st0 : StreamState) (dt : String) (ctc : Option Json)
    (st' : StreamState) (out : Option DeltaOut)
    (h : hermesArgs st0 dt ctc = (st', out)) :
    st'.current_tool_id = st0.current_tool_id ∧
    st'.current_tool_name_sent = st0.current_tool_name_sent ∧
    st'.current_tool_initial_sent = st0.current_tool_initial_sent ∧
    ((st0.prev_tool_call_arr.length : Int) ≤ st0.current_tool_id + 1 →
      (st'.prev_tool_call_arr.length : Int) ≤ st0.current_tool_id + 1) ∧
    (out = none ∨ ∃ a, out = some (DeltaOut.args st0.current_tool_id a)) := by
  unfold hermesArgs at h
  simp only [] at h
  generalize hst1 :
    (if (st0.prev_tool_call_arr.length : Int) ≤ st0.current_tool_id then
        { st0 with prev_tool_call_arr := st0.prev_tool_call_arr ++ [Json.obj []] }
      else st0) = st1 at h
  have c1 : st1.current_tool_id = st0.current_tool_id := by
    rw [← hst1]; split <;> rfl
  have c2 : st1.current_tool_name_sent = st0.current_tool_name_sent := by
    rw [← hst1]; split <;> rfl
  have c3 : st1.current_tool_initial_sent = st0.current_tool_initial_sent := by
    rw [← hst1]; split <;> rfl
  have c4 : (st0.prev_tool_call_arr.length : Int) ≤ st0.current_tool_id + 1 →
      (st1.prev_tool_call_arr.length : Int) ≤ st0.current_tool_id + 1 := by
    rw [← hst1]; split
    · rename_i hc
      intro _
      simp only [List.length_append, List.length_cons, List.length_nil]
      push_cast
      omega
    · exact fun hl => hl
  clear hst1
  repeat' split at h
  all_goals
    first
      | (cases h
         exact ⟨c1, c2, c3, fun hl => c4 hl, Or.inl rfl⟩)
      | (obtain ⟨f1, f2, f3, f4, f5, f6⟩ := hermesSave_facts _ _ _ _ _ h
         rw [c1] at f5
         exact ⟨f1.trans c1, f2.trans c2, f3.trans c3,
           fun hl => f5 (c4 hl), Or.inl (f6.elim id id)⟩)
      | (obtain ⟨g1, g2, g3, g4⟩ := streamedAppend_facts _ _ _ (by assumption)
         obtain ⟨f1, f2, f3, f4, f5, f6⟩ := hermesSave_facts _ _ _ _ _ h
         rw [g1, c1, g4] at f5
         refine ⟨f1.trans (g1.trans c1), f2.trans (g2.trans c2), f3.trans (g3.trans c3),
           fun hl => f5 (c4 hl), ?_⟩
         rcases f6 with hout | hout
         · exact Or.inr ⟨_, by rw [hout, g1, c1]⟩
         · exact Or.inl hout)

theorem phaseOK_congr (st st2 : StreamState) (p : TPhase)
    (h1 : st2.current_tool_initial_sent = st.current_tool_initial_sent)
    (h2 : st2.current_tool_name_sent = st.current_tool_name_sent)
    (h : phaseOK st p) : phaseOK st2 p := by
  unfold phaseOK at *
  rw [h1, h2]
  exact h

theorem goodStart_congr (st st2 : StreamState) (idx : Int) (p : TPhase)
    (hcur : st2.current_tool_id = st.current_tool_id)
    (hin : st2.current_tool_initial_sent = st.current_tool_initial_sent)
    (hnm : st2.current_tool_name_sent = st.current_tool_name_sent)
    (hg : goodStart st idx p) : goodStart st2 idx p := by
  constructor
  · intro hlt
    rw [hcur] at hlt
    exact hg.1 hlt
  · intro heq
    rw [hcur] at heq
    exact phaseOK_congr st st2 p hin hnm (hg.2 heq)

theorem hermesMain_facts (st : StreamState) (dt : String) (portion : Option String)
    (allowStr : Bool) (st' : StreamState) (out : Option DeltaOut)
    (hni : st.current_tool_name_sent = true → st.current_tool_initial_sent = true)
    (h : hermesMain st dt portion allowStr = (st', out)) :
    st'.current_tool_id = st.current_tool_id ∧
    ((st.prev_tool_call_arr.length : Int) ≤ st.current_tool_id + 1 →
      (st'.prev_tool_call_arr.length : Int) ≤ st.current_tool_id + 1) ∧
    (st'.current_tool_name_sent = true → st'.current_tool_initial_sent = true) ∧
    (st'.current_tool_name_sent = false →
      st'.prev_tool_call_arr = st.prev_tool_call_arr ∧ st.current_tool_name_sent = false) ∧
    (∀ idx p, goodStart st idx p →
      ∃ q, phaseRun idx (emitList out) p = some q ∧ goodStart st' idx q) := by
  unfold hermesMain at h
  simp only [] at h
  split at h
  · -- parse raised: nothing happens
    cases h
    exact ⟨rfl, fun hl => hl, hni, fun hn => ⟨rfl, hn⟩, fun idx p hg => ⟨p, rfl, hg⟩⟩
  · rename_i ctc hctc
    split at h
    · -- initial not yet sent: emit the initial delta
      rename_i hinit
      have hinit0 : st.current_tool_initial_sent = false := by
        cases hv : st.current_tool_initial_sent
        · rfl
        · rw [hv] at hinit; simp at hinit
      have hname0 : st.current_tool_name_sent = false := by
        cases hv : st.current_tool_name_sent
        · rfl
        · exact absurd (hni hv) (by rw [hinit0]; simp)
      cases h
      refine ⟨rfl, fun hl => hl, fun _ => rfl, fun hn => ⟨rfl, hn⟩, ?_⟩
      intro idx p hg
      by_cases hidx : st.current_tool_id = idx
      · have hp : p = TPhase.ready := by
          have hpo := hg.2 hidx.symm
          unfold phaseOK at hpo
          rw [hinit0] at hpo
          simpa using hpo
        refine ⟨TPhase.gotInitial, ?_, ?_, ?_⟩
        · simp only [emitList, phaseRun, phaseStep, if_pos hidx, hp]
        · intro hlt
          dsimp only at hlt
          exact absurd hidx (by omega)
        · intro _
          simp [phaseOK, hname0]
      · refine ⟨p, ?_, ?_, ?_⟩
        · simp only [emitList, phaseRun, phaseStep, if_neg hidx]
        · intro hlt; exact hg.1 hlt
        · intro heq; exact absurd heq (fun he => hidx he.symm)
    · rename_i hinitneg
      have hinit1 : st.current_tool_initial_sent = true := by
        cases hv : st.current_tool_initial_sent
        · rw [hv] at hinitneg; simp at hinitneg
        · rfl
      split at h
      · -- name not yet sent
        rename_i hnameneg
        have hname0 : st.current_tool_name_sent = false := by
          cases hv : st.current_tool_name_sent
          · rfl
          · rw [hv] at hnameneg; simp at hnameneg
        split at h
        · -- current_tool_call is None: AttributeError
          cases h
          exact ⟨rfl, fun hl => hl, hni, fun hn => ⟨rfl, hn⟩, fun idx p hg => ⟨p, rfl, hg⟩⟩
        · rename_i j hj
          split at h
          · -- non-dict: exception
            cases h
            exact ⟨rfl, fun hl => hl, hni, fun hn => ⟨rfl, hn⟩, fun idx p hg => ⟨p, rfl, hg⟩⟩
          · rename_i fn hfn
            split at h
            · -- truthy name: pydantic validates the value
              split at h
              · -- string name: the flag is set and the name delta emitted
                cases h
                refine ⟨rfl, fun hl => hl, fun _ => hinit1, fun hn => by simp at hn, ?_⟩
                intro idx p hg
                by_cases hidx : st.current_tool_id = idx
                · have hp : p = TPhase.gotInitial := by
                    have hpo := hg.2 hidx.symm
                    unfold phaseOK at hpo
                    rw [hinit1, hname0] at hpo
                    simpa using hpo
                  refine ⟨TPhase.gotName, ?_, ?_, ?_⟩
                  · simp only [emitList, phaseRun, phaseStep, if_pos hidx, hp]
                  · intro hlt
                    dsimp only at hlt
                    exact absurd hidx (by omega)
                  · intro _
                    simp [phaseOK, hinit1]
                · refine ⟨p, ?_, ?_, ?_⟩
                  · simp only [emitList, phaseRun, phaseStep, if_neg hidx]
                  · intro hlt; exact hg.1 hlt
                  · intro heq; exact absurd heq (fun he => hidx he.symm)
              · -- non-string name: the flag is set, the construction raises
                cases h
                refine ⟨rfl, fun hl => hl, fun _ => hinit1, fun hn => by simp at hn, ?_⟩
                intro idx p hg
                refine ⟨p, rfl, ?_, ?_⟩
                · intro hlt
                  exact hg.1 hlt
                · intro heq
                  have hp : p = TPhase.gotInitial := by
                    have hpo := hg.2 heq
                    unfold phaseOK at hpo
                    rw [hinit1, hname0] at hpo
                    simpa using hpo
                  simp only [phaseOK]
                  simp only [hinit1]
                  simp
                  exact Or.inl hp
            · -- falsy name: nothing
              cases h
              exact ⟨rfl, fun hl => hl, hni, fun hn => ⟨rfl, hn⟩, fun idx p hg => ⟨p, rfl, hg⟩⟩
      · -- arguments phase
        rename_i hnamedneg
        have hname1 : st.current_tool_name_sent = true := by
          cases hv : st.current_tool_name_sent
          · rw [hv] at hnamedneg; simp at hnamedneg
          · rfl
        split at h
        · -- portion None: nothing
          cases h
          exact ⟨rfl, fun hl => hl, hni, fun hn => ⟨rfl, hn⟩, fun idx p hg => ⟨p, rfl, hg⟩⟩
        · obtain ⟨f1, f2, f3, f4, f5⟩ := hermesArgs_facts _ _ _ _ _ h
          refine ⟨f1, f4, fun _ => by rw [f3, hinit1], ?_, ?_⟩
          · intro hn
            rw [f2, hname1] at hn
            cases hn
          · intro idx p hg
            rcases f5 with hout | ⟨a, hout⟩
            · refine ⟨p, by rw [hout]; rfl, ?_⟩
              exact goodStart_congr st st' idx p f1 f3 f2 hg
            · by_cases hidx : st.current_tool_id = idx
              · have hp : p = TPhase.gotInitial ∨ p = TPhase.gotName := by
                  have hpo := hg.2 hidx.symm
                  unfold phaseOK at hpo
                  rw [hinit1, hname1] at hpo
                  simpa using hpo
                refine ⟨TPhase.gotName, ?_, ?_, ?_⟩
                · rw [hout]
                  rcases hp with hp | hp <;>
                    simp only [emitList, phaseRun, phaseStep, if_pos hidx, hp]
                · intro hlt
                  rw [f1] at hlt
                  exact absurd hidx (by omega)
                · intro _
                  unfold phaseOK
                  rw [f3.trans hinit1, f2.trans hname1]
                  simp
              · refine ⟨p, ?_, ?_, ?_⟩
                · rw [hout]
                  simp only [emitList, phaseRun, phaseStep, if_neg hidx]
                · intro hlt
                  rw [f1] at hlt
                  exact hg.1 hlt
                · intro heq
                  rw [f1] at heq
                  exact absurd heq (fun he => hidx he.symm)

theorem hermesStepFacts (st : StreamState) (accT : String) (accI : List Nat) (c : Chunk)
    (hinv : HInv st accI) (st' : StreamState) (out : Option DeltaOut)
    (h : Hermes2ProToolParser.extract_tool_calls_streaming st (mkStepInput accT accI c)
      = (st', out)) :
    HInv st' (accI ++ c.ids) ∧
    (∀ idx p, goodStart st idx p →
      ∃ q, phaseRun idx (emitList out) p = some q ∧ goodStart st' idx q) := by
  unfold Hermes2ProToolParser.extract_tool_calls_streaming at h
  dsimp only [mkStepInput] at h
  have hmonoS : accI.count hermes_start_id ≤ (accI ++ c.ids).count hermes_start_id := by
    rw [List.count_append]; omega
  have hmonoE : accI.count hermes_end_id ≤ (accI ++ c.ids).count hermes_end_id := by
    rw [List.count_append]; omega
  split at h
  · -- no start token anywhere: plain content
    rename_i hA
    have hnm : hermes_start_id ∉ accI ++ c.ids := by
      simp only [Bool.not_eq_true'] at hA
      simp at hA
      intro hm
      rcases List.mem_append.mp hm with hm2 | hm2
      · exact hA.1 hm2
      · exact hA.2 hm2
    have h0 : (accI ++ c.ids).count hermes_start_id = 0 := List.count_eq_zero.mpr hnm
    cases h
    refine ⟨⟨hinv.cur_ge, fun _ => by omega, hinv.arr_len, hinv.name_imp, hinv.arr_name⟩,
      fun idx p hg => ⟨p, rfl, hg⟩⟩
  · split at h
    · -- cheap case: between calls
      rename_i hB
      cases h
      refine ⟨⟨hinv.cur_ge, fun _ => by omega, hinv.arr_len, hinv.name_imp, hinv.arr_name⟩,
        fun idx p hg => ⟨p, rfl, hg⟩⟩
    · rename_i hB
      split at h
      · -- a new call opens
        rename_i hC
        obtain ⟨m1, m2, m3, m4, m5⟩ := hermesMain_facts _ _ _ _ _ _ (fun hn => by cases hn) h
        dsimp only at m1 m2 m3 m4 m5
        refine ⟨⟨?_, ?_, ?_, m3, ?_⟩, ?_⟩
        · have := hinv.cur_ge
          omega
        · intro hneg
          have := hinv.cur_ge
          omega
        · have hpre : (st.prev_tool_call_arr.length : Int) ≤ (st.current_tool_id + 1) + 1 := by
            have := hinv.arr_len
            omega
          have := m2 hpre
          omega
        · intro hn h0
          obtain ⟨harr, _⟩ := m4 hn
          rw [harr]
          have := hinv.arr_len
          omega
        · intro idx p hg
          apply m5
          constructor
          · intro hlt
            dsimp only at hlt
            exact hg.1 (by omega)
          · intro heq
            dsimp only at heq
            have hp : p = TPhase.ready := hg.1 (by omega)
            rw [hp]
            rfl
      · rename_i hC
        split at h
        · -- an open call continues
          rename_i hD
          obtain ⟨m1, m2, m3, m4, m5⟩ := hermesMain_facts _ _ _ _ _ _ hinv.name_imp h
          refine ⟨⟨?_, ?_, ?_, m3, ?_⟩, m5⟩
          · have := hinv.cur_ge
            omega
          · intro hneg
            rw [m1] at hneg
            have hps := hinv.neg_counts hneg
            omega
          · have := m2 hinv.arr_len
            omega
          · intro hn h0
            obtain ⟨harr, hstn⟩ := m4 hn
            rw [harr, m1]
            rw [m1] at h0
            exact hinv.arr_name hstn h0
        · rename_i hD
          split at h
          · -- the call closes
            rename_i hE
            obtain ⟨hst, hout⟩ := hermesClose_facts _ _ _ h
            rw [hst]
            refine ⟨⟨hinv.cur_ge, fun _ => by omega, hinv.arr_len, hinv.name_imp,
              hinv.arr_name⟩, ?_⟩
            intro idx p hg
            rcases hout with hout | ⟨⟨a, hout⟩, ⟨e, hget⟩⟩
            · exact ⟨p, by rw [hout]; rfl, hg⟩
            · have hname1 : st.current_tool_name_sent = true := by
                cases hv : st.current_tool_name_sent
                · exfalso
                  by_cases h0 : 0 ≤ st.current_tool_id
                  · have hlen := hinv.arr_name hv h0
                    rw [pyListGet_none_of_len_le _ _ h0 hlen] at hget
                    cases hget
                  · have hm1 : st.current_tool_id = -1 := by
                      have := hinv.cur_ge
                      omega
                    have hlen := hinv.arr_len
                    rw [hm1] at hlen
                    have : st.prev_tool_call_arr = [] := by
                      cases hl : st.prev_tool_call_arr
                      · rfl
                      · rw [hl] at hlen; simp at hlen; omega
                    rw [this, pyListGet_nil] at hget
                    cases hget
                · rfl
              have hinit1 : st.current_tool_initial_sent = true := hinv.name_imp hname1
              by_cases hidx : st.current_tool_id = idx
              · have hp : p = TPhase.gotInitial ∨ p = TPhase.gotName := by
                  have hpo := hg.2 hidx.symm
                  unfold phaseOK at hpo
                  rw [hinit1, hname1] at hpo
                  simpa using hpo
                refine ⟨TPhase.gotName, ?_, ?_, ?_⟩
                · rw [hout]
                  rcases hp with hp | hp <;>
                    simp only [emitList, phaseRun, phaseStep, if_pos hidx, hp]
                · intro hlt
                  exact absurd hidx (by omega)
                · intro _
                  unfold phaseOK
                  rw [hinit1, hname1]
                  simp
              · refine ⟨p, ?_, ?_, ?_⟩
                · rw [hout]
                  simp only [emitList, phaseRun, phaseStep, if_neg hidx]
                · intro hlt
                  exact hg.1 hlt
                · intro heq
                  exact absurd heq (fun he => hidx he.symm)
          · -- invariant violation: nothing happens
            rename_i hE
            cases h
            refine ⟨⟨hinv.cur_ge, ?_, hinv.arr_len, hinv.name_imp, hinv.arr_name⟩,
              fun idx p hg => ⟨p, rfl, hg⟩⟩
            intro hneg
            by_cases hcs : (accI ++ c.ids).count hermes_end_id <
                (accI ++ c.ids).count hermes_start_id
            · exfalso
              have hps : ¬(accI.count hermes_start_id < (accI ++ c.ids).count hermes_start_id) :=
                fun hgt => hC ⟨hcs, hgt⟩
              have heqps : (accI ++ c.ids).count hermes_start_id = accI.count hermes_start_id := by
                omega
              exact hD ⟨hcs, heqps⟩
            · omega

theorem hermesRunPhase (chunks : List Chunk) :
    ∀ (st : StreamState) (accT : String) (accI : List Nat) (idx : Int) (p : TPhase),
      HInv st accI → goodStart st idx p →
      ∃ q, phaseRun idx (hermesRun st accT accI chunks).2 p = some q := by
  induction chunks with
  | nil => intro st accT accI idx p _ _; exact ⟨p, rfl⟩
  | cons c cs ih =>
    intro st accT accI idx p hinv hg
    obtain ⟨st2, out, hstep⟩ :
        ∃ st2 out, Hermes2ProToolParser.extract_tool_calls_streaming st
          (mkStepInput accT accI c) = (st2, out) := ⟨_, _, rfl⟩
    obtain ⟨hinv2, hpres⟩ := hermesStepFacts st accT accI c hinv st2 out hstep
    obtain ⟨q1, hq1, hg2⟩ := hpres idx p hg
    obtain ⟨q2, hq2⟩ := ih st2 (accT ++ c.text) (accI ++ c.ids) idx q1 hinv2 hg2
    have htr : (hermesRun st accT accI (c :: cs)).2
        = emitList out ++ (hermesRun st2 (accT ++ c.text) (accI ++ c.ids) cs).2 := by
      simp only [hermesRun]
      rw [hstep]
      rfl
    rw [htr, phaseRun_append, hq1]

    exact ⟨q2, hq2⟩

/-- C2 (amended): for every streaming sequence and every call index, the
emission trace respects the per-index protocol - the initial delta is
emitted at most once and precedes every name and arguments delta for
that index; the name delta is emitted at most once, only after the
initial delta and never after an arguments delta; arguments deltas come
only after the initial delta (expressed as acceptance by the
`phaseStep` automaton).  The claim's "exactly once" and "name before
any arguments delta" do not hold: see the counterexample, where the
pydantic validation of a truthy non-string name raises after
`current_tool_name_sent` is set, so arguments deltas are emitted with
no name delta at all. -/
theorem hermes_delta_emission_order (chunks : List Chunk) (idx : Int) :
    (phaseRun idx (hermesTrace chunks) TPhase.ready).isSome := by
  have hinv0 : HInv Hermes2ProToolParser.init [] := by
    refine ⟨by decide, fun _ => by decide, by decide,
      fun h => absurd h (by decide), fun _ h0 => absurd h0 (by decide)⟩
  have hg0 : goodStart Hermes2ProToolParser.init idx TPhase.ready :=
    ⟨fun _ => rfl, fun _ => rfl⟩
  obtain ⟨q, hq⟩ := hermesRunPhase chunks Hermes2ProToolParser.init "" [] idx TPhase.ready
    hinv0 hg0
  unfold hermesTrace
  rw [hq]
  rfl
